import Mathlib

/-!
Verification of the analytics core of the streamlit-stock dashboard.

The Python source is shallowly embedded: pandas/numpy float arithmetic is
modelled in exact arithmetic (`ℚ` where the computation is rational, `ℝ`
where square roots or exponentials appear), pandas `NaN` is modelled with
`Option` (`none` = NaN) where NaN propagation matters, and the IEEE
`inf`/`-inf`/`nan` outcomes of scalar division are modelled with an explicit
sum type where they matter.  Python dicts built by insertion over distinct
keys are modelled as association lists.  Randomness (`np.random.normal`) is
modelled as an explicit matrix of draws passed to the simulator.
-/

namespace StockDash

/-- Embedding of `calculate_balanced_weights` (src/Home.py lines 17-27; an
identical copy lives in src/pages/1_Portfolio.py lines 17-26).  The Python
dict built by enumerating `tickers` is modelled as an association list in
insertion order; `(base_weight + extra) / 100` is exact rational division. -/
def calculate_balanced_weights (tickers : List String) : List (String × ℚ) :=
  let num_tickers := tickers.length
  let base_weight := 100 / num_tickers
  let remainder := 100 - base_weight * num_tickers
  tickers.enum.map fun p =>
    (p.2, (((base_weight + if p.1 < remainder then 1 else 0 : ℕ) : ℚ)) / 100)

/-- NaN-propagating addition of pandas series elements (`none` models NaN):
`0 + NaN = NaN`. -/
def nanAdd : Option ℚ → Option ℚ → Option ℚ
  | some x, some y => some (x + y)
  | _, _ => none

/-- Multiplication of a pandas series element by a float scalar:
`NaN * w = NaN`. -/
def nanSMul (w : ℚ) (x : Option ℚ) : Option ℚ := x.map (· * w)

/-- Tail of pandas `pct_change()` given the previous price. -/
def pctChangeAux (prev : ℚ) : List ℚ → List (Option ℚ)
  | [] => []
  | c :: cs => some (c / prev - 1) :: pctChangeAux c cs

/-- Embedding of `returns = df.pct_change()` on one price column
(src/pages/2_Portfolio_Analysis.py line 159): the first entry is NaN,
entry `t` is `price[t]/price[t-1] - 1`. -/
def pct_change : List ℚ → List (Option ℚ)
  | [] => []
  | p :: ps => none :: pctChangeAux p ps

/-- One `portfolio_returns += returns[ticker] * weight` step of the
aggregation loop (src/pages/2_Portfolio_Analysis.py line 164). -/
def aggStep (returns : List (String × List (Option ℚ)))
    (acc : List (Option ℚ)) (tw : String × ℚ) : List (Option ℚ) :=
  List.zipWith nanAdd acc (((returns.lookup tw.1).getD []).map (nanSMul tw.2))

/-- Embedding of the portfolio aggregation loop
(src/pages/2_Portfolio_Analysis.py lines 162-164):
`portfolio_returns = pd.Series(0, index=returns.index)` followed by
`portfolio_returns += returns[ticker] * weight` for each weight entry.
The returns DataFrame is an association list from ticker to its aligned
column of `numDates` entries. -/
def portfolio_returns (numDates : ℕ) (returns : List (String × List (Option ℚ)))
    (weights : List (String × ℚ)) : List (Option ℚ) :=
  weights.foldl (aggStep returns) (List.replicate numDates (some 0))

/-- pandas `cumprod()` with its default `skipna=True`: NaN entries stay NaN
and are skipped by the running product. -/
def cumprodSkipAux (acc : ℚ) : List (Option ℚ) → List (Option ℚ)
  | [] => []
  | none :: xs => none :: cumprodSkipAux acc xs
  | some x :: xs => some (acc * x) :: cumprodSkipAux (acc * x) xs

/-- Embedding of `cumulative_returns = (1 + returns).cumprod()` for one price
column (src/pages/2_Portfolio_Analysis.py lines 159 and 167). -/
def cumulative_returns (prices : List ℚ) : List (Option ℚ) :=
  cumprodSkipAux 1 ((pct_change prices).map (Option.map (1 + ·)))

/-- pandas `cumprod()` over a NaN-free series, accumulating the running
product. -/
def cumprodAux (acc : ℚ) : List ℚ → List ℚ
  | [] => []
  | x :: xs => (acc * x) :: cumprodAux (acc * x) xs

/-- Tail of pandas `.expanding().max()` given the maximum so far. -/
def runMaxAux (m : ℚ) : List ℚ → List ℚ
  | [] => []
  | x :: xs => max m x :: runMaxAux (max m x) xs

/-- pandas `.expanding().max()`: the monotone expanding maximum. -/
def expandingMax : List ℚ → List ℚ
  | [] => []
  | x :: xs => x :: runMaxAux x xs

/-- pandas `.min()`: NaN (`none`) on an empty series. -/
def seriesMin : List ℚ → Option ℚ
  | [] => none
  | x :: xs => some (xs.foldl min x)

/-- Embedding of `calculate_max_drawdown`
(src/pages/2_Portfolio_Analysis.py lines 34-38) on a NaN-free return
series: `cum_returns = (1 + returns).cumprod()`,
`rolling_max = cum_returns.expanding().max()`,
`drawdowns = cum_returns/rolling_max - 1`, returning `drawdowns.min()`. -/
def calculate_max_drawdown (returns : List ℚ) : Option ℚ :=
  let cum_returns := cumprodAux 1 (returns.map (1 + ·))
  let rolling_max := expandingMax cum_returns
  let drawdowns := List.zipWith (fun c m => c / m - 1) cum_returns rolling_max
  seriesMin drawdowns

/-- The sorted copy of a return series that pandas `Series.quantile`
interpolates over. -/
def sortedReturns (rs : List ℚ) : List ℚ := rs.insertionSort (· ≤ ·)

/-- The fractional index `0.05 * (n - 1)` used by pandas
`Series.quantile(0.05)` under its default linear interpolation. -/
def qIndex (rs : List ℚ) : ℚ := (1 / 20) * ((rs.length : ℚ) - 1)

/-- Integer part of the fractional quantile index. -/
def qFloor (rs : List ℚ) : ℕ := (⌊qIndex rs⌋).toNat

/-- The linearly interpolated 5th-percentile value
`s[j] + (h - j) * (s[j+1] - s[j])` on the sorted series (the `j+1` term
falls back to `s[j]` out of range, where the interpolation weight is 0). -/
def qValue (rs : List ℚ) : ℚ :=
  (sortedReturns rs).getD (qFloor rs) 0 +
    (qIndex rs - (qFloor rs : ℚ)) *
      ((sortedReturns rs).getD (qFloor rs + 1)
          ((sortedReturns rs).getD (qFloor rs) 0) -
        (sortedReturns rs).getD (qFloor rs) 0)

/-- Embedding of the `Value at Risk (95%)` entry of `calculate_risk_metrics`
(src/pages/2_Portfolio_Analysis.py line 55):
`portfolio_returns.quantile(0.05)`; NaN on an empty series. -/
def value_at_risk_95 (rs : List ℚ) : Option ℚ :=
  if rs = [] then none else some (qValue rs)

/-- Embedding of the `Expected Shortfall` entry of `calculate_risk_metrics`
(src/pages/2_Portfolio_Analysis.py line 56): the mean of all returns at or
below the 5th percentile; NaN when the series (hence its quantile, hence
the mask) or the selected tail is empty. -/
def expected_shortfall (rs : List ℚ) : Option ℚ :=
  if rs = [] then none
  else if rs.filter (fun r => r ≤ qValue rs) = [] then none
  else some ((rs.filter (fun r => r ≤ qValue rs)).sum /
    (((rs.filter (fun r => r ≤ qValue rs)).length : ℚ)))

/-- Portfolio volatility `np.sqrt(np.dot(weights.T, np.dot(cov, weights)))`
of `plot_risk_contribution` (src/pages/2_Portfolio_Analysis.py line 92). -/
noncomputable def port_vol (n : ℕ) (cov : Fin n → Fin n → ℝ) (w : Fin n → ℝ) : ℝ :=
  Real.sqrt (∑ i, w i * (∑ j, cov i j * w j))

/-- Marginal contribution to risk `np.dot(cov, weights) / port_vol`
(line 95). -/
noncomputable def marginal_contrib (n : ℕ) (cov : Fin n → Fin n → ℝ)
    (w : Fin n → ℝ) (i : Fin n) : ℝ :=
  (∑ j, cov i j * w j) / port_vol n cov w

/-- Component contribution to risk
`np.multiply(marginal_contrib, weights)` (line 98). -/
noncomputable def risk_contrib (n : ℕ) (cov : Fin n → Fin n → ℝ)
    (w : Fin n → ℝ) (i : Fin n) : ℝ :=
  marginal_contrib n cov w i * w i

/-- Risk contribution percentages
`risk_contrib / risk_contrib.sum() * 100` (line 101). -/
noncomputable def risk_contrib_pct (n : ℕ) (cov : Fin n → Fin n → ℝ)
    (w : Fin n → ℝ) (i : Fin n) : ℝ :=
  risk_contrib n cov w i / (∑ k, risk_contrib n cov w k) * 100

/-- IEEE-style value of a numpy float64 scalar: finite, signed infinity, or
NaN.  Used where a claim turns on the NaN/inf outcome of scalar division. -/
inductive FloatVal : Type
  | finite (x : ℝ) : FloatVal
  | inf : FloatVal
  | ninf : FloatVal
  | nan : FloatVal

/-- IEEE float64 division of finite scalars (numpy semantics): division by
zero yields NaN for `0/0` and a signed infinity otherwise. -/
noncomputable def fdiv (a b : ℝ) : FloatVal :=
  if b = 0 then
    (if a = 0 then FloatVal.nan else if 0 < a then FloatVal.inf else FloatVal.ninf)
  else FloatVal.finite (a / b)

/-- IEEE float64 multiplication of a finite scalar with a possibly
non-finite value (numpy semantics). -/
noncomputable def fscale (c : ℝ) : FloatVal → FloatVal
  | FloatVal.finite x => FloatVal.finite (c * x)
  | FloatVal.inf =>
      if 0 < c then FloatVal.inf else if c < 0 then FloatVal.ninf else FloatVal.nan
  | FloatVal.ninf =>
      if 0 < c then FloatVal.ninf else if c < 0 then FloatVal.inf else FloatVal.nan
  | FloatVal.nan => FloatVal.nan

/-- pandas `Series.mean()` in exact real arithmetic. -/
noncomputable def seriesMean (rs : List ℝ) : ℝ := rs.sum / rs.length

/-- pandas `Series.var()` (sample variance, `ddof=1`) in exact real
arithmetic. -/
noncomputable def seriesVar (rs : List ℝ) : ℝ :=
  ((rs.map (fun x => (x - seriesMean rs) ^ 2)).sum) / ((rs.length - 1 : ℕ) : ℝ)

/-- pandas `Series.std()` (sample standard deviation, `ddof=1`). -/
noncomputable def seriesStd (rs : List ℝ) : ℝ := Real.sqrt (seriesVar rs)

/-- Embedding of line 187 of src/pages/2_Portfolio_Analysis.py:
`sharpe = np.sqrt(252) * (portfolio_returns.mean() / portfolio_returns.std())`,
with the scalar division and multiplication carried out with numpy float64
semantics so that the NaN/inf outcomes of a zero standard deviation are
observable. -/
noncomputable def sharpe (rs : List ℝ) : FloatVal :=
  fscale (Real.sqrt 252) (fdiv (seriesMean rs) (seriesStd rs))

/-- One GBM daily factor
`np.exp(drift + portfolio_vol * np.random.normal(0, 1, ...))` of
`run_monte_carlo_simulation` (src/pages/2_Portfolio_Analysis.py lines
135-142), where `drift = portfolio_mean - portfolio_vol**2 / 2` and the
standard-normal draws are the injected matrix `z`. -/
noncomputable def daily_returns (pr : List ℝ) (z : ℕ → ℕ → ℝ) (i d : ℕ) : ℝ :=
  Real.exp ((seriesMean pr - seriesStd pr ^ 2 / 2) + seriesStd pr * z i d)

/-- Price path entry
`(initial_portfolio_value * np.cumprod(daily_returns, axis=1))[i, d]`
with `initial_portfolio_value = 10000` (lines 145-146). -/
noncomputable def price_paths (pr : List ℝ) (z : ℕ → ℕ → ℝ) (i d : ℕ) : ℝ :=
  10000 * ∏ k in Finset.range (d + 1), daily_returns pr z i k

/-- Embedding of `np.percentile` at percentage `q` with its default linear interpolation;
the fractional index `q/100 * (n-1)` is tracked in exact rational
arithmetic. -/
noncomputable def npPercentile (q : ℚ) (l : List ℝ) : ℝ :=
  (l.insertionSort (· ≤ ·)).getD ((⌊q / 100 * ((l.length : ℚ) - 1)⌋).toNat) 0 +
    ((q / 100 * ((l.length : ℚ) - 1) -
      ((⌊q / 100 * ((l.length : ℚ) - 1)⌋).toNat : ℚ) : ℚ) : ℝ) *
      ((l.insertionSort (· ≤ ·)).getD
          ((⌊q / 100 * ((l.length : ℚ) - 1)⌋).toNat + 1)
          ((l.insertionSort (· ≤ ·)).getD
            ((⌊q / 100 * ((l.length : ℚ) - 1)⌋).toNat) 0) -
        (l.insertionSort (· ≤ ·)).getD
          ((⌊q / 100 * ((l.length : ℚ) - 1)⌋).toNat) 0)

/-- Embedding of `run_monte_carlo_simulation`
(src/pages/2_Portfolio_Analysis.py lines 133-152).  `market_returns` is
accepted, exactly as in the source, and never used.  Returns the matrix of
price paths together with `np.percentile(final_values, [5, 25, 50, 75, 95])`
over the terminal (day `n_days - 1`) values of the `n_simulations` paths. -/
noncomputable def run_monte_carlo_simulation
    (portfolio_returns market_returns : List ℝ) (z : ℕ → ℕ → ℝ)
    (n_simulations n_days : ℕ) : (ℕ → ℕ → ℝ) × List ℝ :=
  (price_paths portfolio_returns z,
   [5, 25, 50, 75, 95].map fun q =>
     npPercentile q (List.ofFn fun i : Fin n_simulations =>
       price_paths portfolio_returns z i (n_days - 1)))

/- ------------------------------------------------------------------ -/
/- Theorems                                                            -/
/- ------------------------------------------------------------------ -/

private lemma range_filter_lt (n rem : ℕ) (h : rem ≤ n) :
    (Finset.range n).filter (fun i => i < rem) = Finset.range rem := by
  ext i
  simp only [Finset.mem_filter, Finset.mem_range]
  omega

private lemma list_range_map_sum (f : ℕ → ℚ) (n : ℕ) :
    ((List.range n).map f).sum = ∑ i in Finset.range n, f i := rfl

private lemma balanced_weights_snd (tickers : List String) :
    (calculate_balanced_weights tickers).map Prod.snd =
      (List.range tickers.length).map fun i =>
        (((100 / tickers.length + if i < 100 - 100 / tickers.length * tickers.length
            then 1 else 0 : ℕ) : ℚ)) / 100 := by
  unfold calculate_balanced_weights
  rw [List.map_map]
  have : (Prod.snd ∘ fun p : ℕ × String =>
      (p.2, (((100 / tickers.length + if p.1 < 100 - 100 / tickers.length * tickers.length
        then 1 else 0 : ℕ) : ℚ)) / 100)) =
      (fun i : ℕ =>
        (((100 / tickers.length + if i < 100 - 100 / tickers.length * tickers.length
          then 1 else 0 : ℕ) : ℚ)) / 100) ∘ Prod.fst := rfl
  rw [this, ← List.map_map, List.enum_map_fst]

/-- C1: for every nonempty list of distinct tickers, the values of the weight
mapping returned by `calculate_balanced_weights` sum to exactly 1 (exact
rational arithmetic model of the Python floats). -/
theorem balanced_weights_sum_one (tickers : List String)
    (hne : tickers ≠ []) (hnodup : tickers.Nodup) :
    ((calculate_balanced_weights tickers).map Prod.snd).sum = 1 := by
  have hnpos : 0 < tickers.length := List.length_pos.mpr hne
  set n := tickers.length with hn
  set base := 100 / n with hbase
  set rem := 100 - base * n with hrem
  have hbn : base * n ≤ 100 := Nat.div_mul_le_self 100 n
  have hdm : n * base + 100 % n = 100 := Nat.div_add_mod 100 n
  have hc : base * n + 100 % n = 100 := by rw [mul_comm] at hdm; exact hdm
  have hmlt : 100 % n < n := Nat.mod_lt _ hnpos
  have hremn : rem ≤ n := by omega
  rw [balanced_weights_snd, ← hn, ← hbase, ← hrem, list_range_map_sum]
  have cast_step : ∀ i : ℕ,
      (((base + if i < rem then 1 else 0 : ℕ) : ℚ)) / 100 =
        ((base : ℚ) + if i < rem then (1 : ℚ) else 0) / 100 := by
    intro i
    split <;> push_cast <;> ring
  simp only [cast_step]
  rw [← Finset.sum_div, Finset.sum_add_distrib, Finset.sum_const,
    Finset.card_range]
  have hite : ∑ x in Finset.range n, (if x < rem then (1 : ℚ) else 0) =
      (rem : ℚ) := by
    simp only [Finset.sum_boole]
    rw [range_filter_lt n rem hremn, Finset.card_range]
  rw [hite, nsmul_eq_mul]
  have hnat : n * base + rem = 100 := by omega
  have hq : (n : ℚ) * base + rem = 100 := by
    exact_mod_cast hnat
  rw [hq]
  norm_num

/-- Closed-form witness for C1 at a concrete three-ticker input. -/
theorem balanced_weights_sum_one_witness :
    (["A", "B", "C"] : List String) ≠ [] ∧
    (["A", "B", "C"] : List String).Nodup ∧
    ((calculate_balanced_weights ["A", "B", "C"]).map Prod.snd).sum = 1 :=
  ⟨by decide, by decide, balanced_weights_sum_one _ (by decide) (by decide)⟩

/-- C9: for any six distinct tickers, the weight mapping keeps the tickers in
input order and assigns 17% to the first four and 16% to the last two. -/
theorem balanced_weights_six (tickers : List String)
    (hnodup : tickers.Nodup) (hlen : tickers.length = 6) :
    (calculate_balanced_weights tickers).map Prod.fst = tickers ∧
    (calculate_balanced_weights tickers).map Prod.snd =
      [17/100, 17/100, 17/100, 17/100, 16/100, 16/100] := by
  constructor
  · unfold calculate_balanced_weights
    rw [List.map_map]
    have : (Prod.fst ∘ fun p : ℕ × String =>
        (p.2, (((100 / tickers.length + if p.1 < 100 - 100 / tickers.length * tickers.length
          then 1 else 0 : ℕ) : ℚ)) / 100)) = Prod.snd := rfl
    rw [this, List.enum_map_snd]
  · rw [balanced_weights_snd, hlen]
    norm_num [List.range_succ]

/-- Closed-form witness for C9 at a concrete six-ticker input. -/
theorem balanced_weights_six_witness :
    (["A", "B", "C", "D", "E", "F"] : List String).Nodup ∧
    (calculate_balanced_weights ["A", "B", "C", "D", "E", "F"]).map Prod.fst =
      ["A", "B", "C", "D", "E", "F"] ∧
    (calculate_balanced_weights ["A", "B", "C", "D", "E", "F"]).map Prod.snd =
      [17/100, 17/100, 17/100, 17/100, 16/100, 16/100] :=
  ⟨by decide, balanced_weights_six _ (by decide) (by decide)⟩

private lemma getLast?_cons_ne {α : Type} (a : α) (l : List α) (h : l ≠ []) :
    (a :: l).getLast? = l.getLast? := by
  cases l with
  | nil => exact absurd rfl h
  | cons b t => exact List.getLast?_cons_cons

private lemma cumprodSkipAux_ne_nil (t : ℚ) (x : Option ℚ) (xs : List (Option ℚ)) :
    cumprodSkipAux t (x :: xs) ≠ [] := by
  cases x <;> simp [cumprodSkipAux]

private lemma aggStep_head_none_of_col (returns : List (String × List (Option ℚ)))
    (acc : List (Option ℚ)) (tw : String × ℚ)
    (hacc : ∃ a, acc.head? = some a)
    (hcol : ((returns.lookup tw.1).getD []).head? = some none) :
    (aggStep returns acc tw).head? = some none := by
  unfold aggStep
  cases acc with
  | nil => simp at hacc
  | cons a acc' =>
    cases hc : ((returns.lookup tw.1).getD []) with
    | nil => rw [hc] at hcol; simp at hcol
    | cons x xs =>
      rw [hc] at hcol
      simp only [List.head?_cons, Option.some.injEq] at hcol
      subst hcol
      cases a <;> simp [hc, nanAdd, nanSMul]

private lemma aggStep_head_none (returns : List (String × List (Option ℚ)))
    (acc : List (Option ℚ)) (tw : String × ℚ)
    (hacc : acc.head? = some none)
    (hcol : ((returns.lookup tw.1).getD []) ≠ []) :
    (aggStep returns acc tw).head? = some none := by
  unfold aggStep
  cases acc with
  | nil => simp at hacc
  | cons a acc' =>
    simp only [List.head?_cons, Option.some.injEq] at hacc
    subst hacc
    cases hc : ((returns.lookup tw.1).getD []) with
    | nil => exact absurd hc hcol
    | cons x xs => simp [hc, nanAdd]

private lemma foldl_aggStep_head_none (returns : List (String × List (Option ℚ)))
    (ws : List (String × ℚ)) :
    ∀ acc : List (Option ℚ), acc.head? = some none →
      (∀ tw ∈ ws, ((returns.lookup tw.1).getD []) ≠ []) →
      ((ws.foldl (aggStep returns) acc).head? = some none) := by
  induction ws with
  | nil => intro acc hacc _; exact hacc
  | cons tw ws ih =>
    intro acc hacc hcols
    rw [List.foldl_cons]
    exact ih _ (aggStep_head_none returns acc tw hacc (hcols tw (by simp)))
      (fun tw' h => hcols tw' (by simp [h]))

/-- C2, counterexample to the claim as stated: one ticker with prices
`[100, 110]` and weight 1.  The per-instrument return at the first date is
NaN, and the aggregated portfolio return at the first date is NaN, not 0:
the zero-initialized accumulator does not survive `0 + NaN`. -/
theorem portfolio_first_date_counterexample :
    (portfolio_returns 2 [("A", pct_change [100, 110])] [("A", 1)]).head? =
      some none ∧
    (some (none : Option ℚ)) ≠ some (some (0 : ℚ)) := by
  constructor
  · rfl
  · simp

/-- C2 amended: the aggregation loop initializes its accumulator at zero, but
NaN propagates through the weighted addition, so whenever every weighted
ticker's return column starts with NaN (as `pct_change` always produces) and
there is at least one weight entry, the portfolio return at the first date is
NaN (undefined), not zero. -/
theorem portfolio_first_date_nan (numDates : ℕ)
    (returns : List (String × List (Option ℚ))) (weights : List (String × ℚ))
    (hd : 0 < numDates) (hw : weights ≠ [])
    (hfirst : ∀ tw ∈ weights, ∃ rs, returns.lookup tw.1 = some rs ∧
      rs.head? = some none) :
    (portfolio_returns numDates returns weights).head? = some none := by
  unfold portfolio_returns
  cases weights with
  | nil => exact absurd rfl hw
  | cons tw ws =>
    obtain ⟨m, rfl⟩ : ∃ m, numDates = m + 1 :=
      ⟨numDates - 1, by omega⟩
    rw [List.foldl_cons]
    apply foldl_aggStep_head_none
    · obtain ⟨rs, hrs, hh⟩ := hfirst tw (by simp)
      have hcol : ((returns.lookup tw.1).getD []) = rs := by rw [hrs]; rfl
      apply aggStep_head_none_of_col
      · exact ⟨some 0, by simp [List.replicate_succ]⟩
      · rw [hcol]
        exact hh
    · intro tw' h
      obtain ⟨rs, hrs, hh⟩ := hfirst tw' (by simp [h])
      rw [hrs]
      intro hnil
      simp only [Option.getD_some] at hnil
      rw [hnil] at hh
      simp at hh

/-- Closed-form witness for the amended C2 theorem at the counterexample
input. -/
theorem portfolio_first_date_nan_witness :
    0 < 2 ∧ ([(("A" : String), (1 : ℚ))] ≠ []) ∧
    (∀ tw ∈ [(("A" : String), (1 : ℚ))],
      ∃ rs, ([("A", pct_change [100, 110])].lookup tw.1) = some rs ∧
        rs.head? = some none) ∧
    (portfolio_returns 2 [("A", pct_change [100, 110])] [("A", 1)]).head? =
      some none := by
  refine ⟨by norm_num, by simp, ?_, ?_⟩
  · intro tw htw
    rcases List.mem_singleton.mp htw with rfl
    exact ⟨pct_change [100, 110], rfl, rfl⟩
  · exact portfolio_first_date_nan 2 _ _ (by norm_num) (by simp)
      (by intro tw htw
          rcases List.mem_singleton.mp htw with rfl
          exact ⟨pct_change [100, 110], rfl, rfl⟩)

private lemma cumprod_pct_last (cs : List ℚ) :
    ∀ prev s : ℚ, 0 < prev → (∀ c ∈ cs, 0 < c) → cs ≠ [] →
      (cumprodSkipAux s
        ((pctChangeAux prev cs).map (Option.map (1 + ·)))).getLast? =
        some (some (s * (cs.getLast?.getD 0 / prev))) := by
  induction cs with
  | nil => intro _ _ _ _ h; exact absurd rfl h
  | cons c cs ih =>
    intro prev s hprev hpos _
    have hc : 0 < c := hpos c (by simp)
    cases cs with
    | nil =>
      have h1 : (cumprodSkipAux s
          ((pctChangeAux prev [c]).map (Option.map (1 + ·)))).getLast? =
          some (some (s * (1 + (c / prev - 1)))) := rfl
      have h2 : ([c] : List ℚ).getLast?.getD 0 = c := rfl
      rw [h1, h2]
      simp only [Option.some.injEq]
      ring
    | cons c' rest =>
      rw [show pctChangeAux prev (c :: c' :: rest) =
        some (c / prev - 1) :: pctChangeAux c (c' :: rest) from rfl]
      rw [List.map_cons, Option.map_some']
      rw [show cumprodSkipAux s
          (some (1 + (c / prev - 1)) ::
            (pctChangeAux c (c' :: rest)).map (Option.map (1 + ·))) =
        some (s * (1 + (c / prev - 1))) ::
          cumprodSkipAux (s * (1 + (c / prev - 1)))
            ((pctChangeAux c (c' :: rest)).map (Option.map (1 + ·))) from rfl]
      have hne : cumprodSkipAux (s * (1 + (c / prev - 1)))
          ((pctChangeAux c (c' :: rest)).map (Option.map (1 + ·))) ≠ [] := by
        rw [show pctChangeAux c (c' :: rest) =
          some (c' / c - 1) :: pctChangeAux c' rest from rfl]
        rw [List.map_cons]
        exact cumprodSkipAux_ne_nil _ _ _
      rw [getLast?_cons_ne _ _ hne]
      rw [ih c (s * (1 + (c / prev - 1))) hc
        (fun x hx => hpos x (by simp [hx])) (by simp)]
      rw [List.getLast?_cons_cons]
      have hL : ∀ L : ℚ, s * (1 + (c / prev - 1)) * (L / c) = s * (L / prev) := by
        intro L
        field_simp
        ring
      rw [hL]

/-- C3, counterexample to the claim as stated: for the strictly positive
single-observation price series `[5]`, the last entry of the compounded
cumulative-return series is NaN, while `prices[-1]/prices[0] = 1`. -/
theorem cumulative_returns_roundtrip_counterexample :
    (∀ p ∈ ([5] : List ℚ), 0 < p) ∧
    (cumulative_returns [5]).getLast? ≠ some (some ((5 : ℚ) / 5)) := by
  constructor
  · intro p hp
    rcases List.mem_singleton.mp hp with rfl
    norm_num
  · intro h
    have : (cumulative_returns [5]).getLast? = some none := rfl
    rw [this] at h
    simp at h

/-- C3 amended: for every strictly positive price series with at least two
observations, the last entry of `(1 + pct_change).cumprod()` equals
`prices[-1]/prices[0]` exactly (exact arithmetic model). -/
theorem cumulative_returns_roundtrip (prices : List ℚ)
    (hlen : 2 ≤ prices.length) (hpos : ∀ p ∈ prices, 0 < p) :
    (cumulative_returns prices).getLast? =
      some (some (prices.getLast?.getD 0 / prices.head?.getD 0)) := by
  cases prices with
  | nil => simp at hlen
  | cons p ps =>
    cases ps with
    | nil => simp at hlen
    | cons c rest =>
      have hp : 0 < p := hpos p (by simp)
      unfold cumulative_returns
      rw [show pct_change (p :: c :: rest) =
        none :: pctChangeAux p (c :: rest) from rfl]
      rw [List.map_cons, Option.map_none']
      rw [show cumprodSkipAux 1
          (none :: (pctChangeAux p (c :: rest)).map (Option.map (1 + ·))) =
        none :: cumprodSkipAux 1
          ((pctChangeAux p (c :: rest)).map (Option.map (1 + ·))) from rfl]
      have hne : cumprodSkipAux 1
          ((pctChangeAux p (c :: rest)).map (Option.map (1 + ·))) ≠ [] := by
        rw [show pctChangeAux p (c :: rest) =
          some (c / p - 1) :: pctChangeAux c rest from rfl]
        rw [List.map_cons]
        exact cumprodSkipAux_ne_nil _ _ _
      rw [getLast?_cons_ne _ _ hne]
      rw [cumprod_pct_last (c :: rest) p 1 hp
        (fun x hx => hpos x (by simp [hx])) (by simp)]
      rw [List.getLast?_cons_cons, List.head?_cons]
      simp only [Option.getD_some, one_mul]

/-- Closed-form witness for the amended C3 theorem at the price series
`[100, 110, 99]`. -/
theorem cumulative_returns_roundtrip_witness :
    2 ≤ ([100, 110, 99] : List ℚ).length ∧
    (∀ p ∈ ([100, 110, 99] : List ℚ), 0 < p) ∧
    (cumulative_returns [100, 110, 99]).getLast? =
      some (some (([100, 110, 99] : List ℚ).getLast?.getD 0 /
        ([100, 110, 99] : List ℚ).head?.getD 0)) := by
  refine ⟨by norm_num, ?_, ?_⟩
  · decide
  · exact cumulative_returns_roundtrip [100, 110, 99] (by norm_num) (by decide)

private lemma cumprodAux_pos (xs : List ℚ) :
    ∀ acc : ℚ, 0 < acc → (∀ x ∈ xs, 0 < x) →
      ∀ c ∈ cumprodAux acc xs, 0 < c := by
  induction xs with
  | nil => intro acc _ _ c hc; simp [cumprodAux] at hc
  | cons x xs ih =>
    intro acc hacc hx c hc
    have hxp : 0 < x := hx x (by simp)
    rw [show cumprodAux acc (x :: xs) = (acc * x) :: cumprodAux (acc * x) xs
      from rfl] at hc
    rcases List.mem_cons.mp hc with rfl | hc
    · exact mul_pos hacc hxp
    · exact ih (acc * x) (mul_pos hacc hxp) (fun y hy => hx y (by simp [hy])) c hc

private lemma dd_bounds (cs : List ℚ) :
    ∀ m : ℚ, 0 < m → (∀ c ∈ cs, 0 < c) →
      ∀ d ∈ List.zipWith (fun c mm => c / mm - 1) cs (runMaxAux m cs),
        -1 < d ∧ d ≤ 0 := by
  induction cs with
  | nil => intro m _ _ d hd; simp at hd
  | cons c cs ih =>
    intro m hm hcs d hd
    have hc : 0 < c := hcs c (by simp)
    have hmax : 0 < max m c := lt_max_iff.mpr (Or.inl hm)
    rw [show runMaxAux m (c :: cs) = max m c :: runMaxAux (max m c) cs
      from rfl, List.zipWith_cons_cons] at hd
    rcases List.mem_cons.mp hd with rfl | hd
    · constructor
      · have : 0 < c / max m c := div_pos hc hmax
        linarith
      · have : c / max m c ≤ 1 := (div_le_one hmax).mpr (le_max_right m c)
        linarith
    · exact ih (max m c) hmax (fun y hy => hcs y (by simp [hy])) d hd

private lemma foldl_min_bounds (ds : List ℚ) :
    ∀ d0 : ℚ, -1 < d0 ∧ d0 ≤ 0 → (∀ d ∈ ds, -1 < d ∧ d ≤ 0) →
      -1 < ds.foldl min d0 ∧ ds.foldl min d0 ≤ 0 := by
  induction ds with
  | nil => intro d0 h _; exact h
  | cons d ds ih =>
    intro d0 h hds
    rw [List.foldl_cons]
    have hd : -1 < d ∧ d ≤ 0 := hds d (by simp)
    exact ih (min d0 d) ⟨lt_min h.1 hd.1, min_le_of_left_le h.2⟩
      (fun y hy => hds y (by simp [hy]))

/-- C4, counterexample to the claim as stated: the empty return series
vacuously has every daily return greater than -1, yet `.min()` over the
empty drawdown series is NaN, which satisfies neither bound. -/
theorem max_drawdown_counterexample :
    (∀ r ∈ ([] : List ℚ), -1 < r) ∧
    ¬ ∃ q, calculate_max_drawdown [] = some q ∧ -1 ≤ q ∧ q ≤ 0 := by
  constructor
  · simp
  · rintro ⟨q, hq, -, -⟩
    rw [show calculate_max_drawdown [] = none from rfl] at hq
    exact Option.noConfusion hq

/-- C4 amended: for every nonempty return series in which each daily return
is greater than -1, `calculate_max_drawdown` returns a value between -1
and 0. -/
theorem max_drawdown_bounds (returns : List ℚ) (hne : returns ≠ [])
    (hgt : ∀ r ∈ returns, -1 < r) :
    ∃ q, calculate_max_drawdown returns = some q ∧ -1 ≤ q ∧ q ≤ 0 := by
  cases returns with
  | nil => exact absurd rfl hne
  | cons r rs =>
    have hx : ∀ x ∈ (r :: rs).map (1 + ·), 0 < x := by
      intro x hx
      obtain ⟨y, hy, rfl⟩ := List.mem_map.mp hx
      have := hgt y hy
      linarith
    have hc0 : 0 < 1 * (1 + r) := by
      have := hgt r (by simp)
      linarith
    have hd0 : (1 * (1 + r)) / (1 * (1 + r)) - 1 = 0 := by
      rw [div_self (ne_of_gt hc0)]
      ring
    have hexp : calculate_max_drawdown (r :: rs) =
        some ((List.zipWith (fun c m => c / m - 1)
          (cumprodAux (1 * (1 + r)) (rs.map (1 + ·)))
          (runMaxAux (1 * (1 + r)) (cumprodAux (1 * (1 + r)) (rs.map (1 + ·))))).foldl
            min ((1 * (1 + r)) / (1 * (1 + r)) - 1)) := rfl
    rw [hexp]
    have htail_pos : ∀ c ∈ cumprodAux (1 * (1 + r)) (rs.map (1 + ·)), 0 < c :=
      cumprodAux_pos _ _ hc0 (fun y hy => hx y (by simp [hy]))
    have hbounds := foldl_min_bounds
      (List.zipWith (fun c m => c / m - 1)
        (cumprodAux (1 * (1 + r)) (rs.map (1 + ·)))
        (runMaxAux (1 * (1 + r)) (cumprodAux (1 * (1 + r)) (rs.map (1 + ·)))))
      ((1 * (1 + r)) / (1 * (1 + r)) - 1)
      (by rw [hd0]; norm_num)
      (dd_bounds _ _ hc0 htail_pos)
    exact ⟨_, rfl, le_of_lt hbounds.1, hbounds.2⟩

/-- Closed-form witness for the amended C4 theorem at the return series
`[1/10, -1/20]`. -/
theorem max_drawdown_bounds_witness :
    ([(1 : ℚ)/10, -1/20] ≠ []) ∧ (∀ r ∈ [(1 : ℚ)/10, -1/20], -1 < r) ∧
    ∃ q, calculate_max_drawdown [(1 : ℚ)/10, -1/20] = some q ∧
      -1 ≤ q ∧ q ≤ 0 :=
  ⟨by simp, by norm_num, max_drawdown_bounds _ (by simp) (by norm_num)⟩

private lemma sortedReturns_length (rs : List ℚ) :
    (sortedReturns rs).length = rs.length :=
  (List.perm_insertionSort _ rs).length_eq

private lemma qIndex_nonneg (rs : List ℚ) (h : rs ≠ []) : 0 ≤ qIndex rs := by
  have hn : 0 < rs.length := List.length_pos.mpr h
  have h1 : (1 : ℚ) ≤ rs.length := by exact_mod_cast hn
  unfold qIndex
  nlinarith

private lemma qFloor_lt (rs : List ℚ) (h : rs ≠ []) :
    qFloor rs < rs.length := by
  have hn : 0 < rs.length := List.length_pos.mpr h
  have h1 : (1 : ℚ) ≤ rs.length := by exact_mod_cast hn
  have hle : qIndex rs ≤ (rs.length : ℚ) - 1 := by
    unfold qIndex
    nlinarith
  have hfl : ⌊qIndex rs⌋ ≤ ⌊(rs.length : ℚ) - 1⌋ := Int.floor_le_floor hle
  have hcast : ⌊(rs.length : ℚ) - 1⌋ = (rs.length : ℤ) - 1 := by
    rw [show ((rs.length : ℚ) - 1) = (((rs.length : ℤ) - 1 : ℤ) : ℚ) by
      push_cast; ring]
    exact Int.floor_intCast _
  rw [hcast] at hfl
  unfold qFloor
  omega

private lemma qFloor_le_qIndex (rs : List ℚ) (h : rs ≠ []) :
    (qFloor rs : ℚ) ≤ qIndex rs := by
  have h0 : 0 ≤ qIndex rs := qIndex_nonneg rs h
  have h2 : ((⌊qIndex rs⌋).toNat : ℤ) = ⌊qIndex rs⌋ :=
    Int.toNat_of_nonneg (Int.floor_nonneg.mpr h0)
  unfold qFloor
  calc ((⌊qIndex rs⌋).toNat : ℚ) = (((⌊qIndex rs⌋).toNat : ℤ) : ℚ) := by
        push_cast; ring
    _ = ((⌊qIndex rs⌋ : ℤ) : ℚ) := by rw [h2]
    _ ≤ qIndex rs := Int.floor_le _

private lemma sorted_getD_le (rs : List ℚ) (i k : ℕ) (d₁ d₂ : ℚ) (hik : i ≤ k)
    (hk : k < (sortedReturns rs).length) :
    (sortedReturns rs).getD i d₁ ≤ (sortedReturns rs).getD k d₂ := by
  have hi : i < (sortedReturns rs).length := lt_of_le_of_lt hik hk
  rw [List.getD_eq_get _ d₁ hi, List.getD_eq_get _ d₂ hk]
  exact (List.sorted_insertionSort _ rs).rel_get_of_le (by exact hik)

private lemma getD_qFloor_le_qValue (rs : List ℚ) (h : rs ≠ []) :
    (sortedReturns rs).getD (qFloor rs) 0 ≤ qValue rs := by
  have hg : 0 ≤ qIndex rs - (qFloor rs : ℚ) := by
    have := qFloor_le_qIndex rs h
    linarith
  have hdiff : 0 ≤ (sortedReturns rs).getD (qFloor rs + 1)
      ((sortedReturns rs).getD (qFloor rs) 0) -
      (sortedReturns rs).getD (qFloor rs) 0 := by
    by_cases hj : qFloor rs + 1 < (sortedReturns rs).length
    · have := sorted_getD_le rs (qFloor rs) (qFloor rs + 1) 0
        ((sortedReturns rs).getD (qFloor rs) 0) (Nat.le_succ _) hj
      linarith
    · rw [List.getD_eq_default _ _ (by omega)]
      simp
  unfold qValue
  nlinarith

private lemma sorted_head_le_qValue (rs : List ℚ) (h : rs ≠ []) :
    (sortedReturns rs).getD 0 0 ≤ qValue rs := by
  have hjlen : qFloor rs < (sortedReturns rs).length := by
    rw [sortedReturns_length]
    exact qFloor_lt rs h
  exact le_trans (sorted_getD_le rs 0 (qFloor rs) 0 0 (Nat.zero_le _) hjlen)
    (getD_qFloor_le_qValue rs h)

private lemma sorted_head_mem (rs : List ℚ) (h : rs ≠ []) :
    (sortedReturns rs).getD 0 0 ∈ rs := by
  have hlen : 0 < (sortedReturns rs).length := by
    rw [sortedReturns_length]
    exact List.length_pos.mpr h
  rw [List.getD_eq_get _ _ hlen]
  exact (List.perm_insertionSort _ rs).mem_iff.mp (List.get_mem _ _ _)

/-- C5, counterexample to the claim as stated: for the return series
`[-0.1, 0, 0.1]`, `VaR(95%) = -0.09` (interpolated 5th percentile) while
`Expected Shortfall = -0.1` (mean of the one tail value), so
`VaR ≤ ES` fails. -/
theorem var_le_es_counterexample :
    value_at_risk_95 [-1/10, 0, 1/10] = some (-9/100) ∧
    expected_shortfall [-1/10, 0, 1/10] = some (-1/10) ∧
    ¬ ((-9/100 : ℚ) ≤ (-1/10 : ℚ)) := by
  have hs : sortedReturns [-1/10, 0, 1/10] = [-1/10, 0, 1/10] := by
    norm_num [sortedReturns, List.insertionSort, List.orderedInsert]
  have hqi : qIndex [-1/10, 0, 1/10] = 1/10 := by
    norm_num [qIndex]
  have hqf : qFloor [-1/10, 0, 1/10] = 0 := by
    unfold qFloor
    rw [hqi]
    norm_num
  have hqv : qValue [-1/10, 0, 1/10] = -9/100 := by
    unfold qValue
    rw [hs, hqf, hqi]
    norm_num
  have hfil : ([-1/10, 0, 1/10] : List ℚ).filter
      (fun r => r ≤ qValue [-1/10, 0, 1/10]) = [-1/10] := by
    rw [hqv]
    norm_num [List.filter_cons, decide_eq_true_eq]
  refine ⟨?_, ?_, by norm_num⟩
  · unfold value_at_risk_95
    rw [if_neg (by simp), hqv]
  · unfold expected_shortfall
    rw [if_neg (by simp)]
    rw [hfil]
    norm_num

/-- C5 amended: for every nonempty return series, both metrics are defined
and the Expected Shortfall (tail mean) is at most the Value at Risk
(cutoff quantile) — the claimed inequality holds with the sides reversed. -/
theorem es_le_var (rs : List ℚ) (hne : rs ≠ []) :
    ∃ q e, value_at_risk_95 rs = some q ∧ expected_shortfall rs = some e ∧
      e ≤ q := by
  have hhead_le := sorted_head_le_qValue rs hne
  have hhead_mem := sorted_head_mem rs hne
  have htne : rs.filter (fun r => r ≤ qValue rs) ≠ [] := by
    apply List.ne_nil_of_mem (a := (sortedReturns rs).getD 0 0)
    exact List.mem_filter.mpr ⟨hhead_mem, decide_eq_true hhead_le⟩
  refine ⟨qValue rs,
    (rs.filter (fun r => r ≤ qValue rs)).sum /
      (((rs.filter (fun r => r ≤ qValue rs)).length : ℚ)), ?_, ?_, ?_⟩
  · unfold value_at_risk_95
    rw [if_neg hne]
  · unfold expected_shortfall
    rw [if_neg hne, if_neg htne]
  · set t := rs.filter (fun r => r ≤ qValue rs) with htdef
    have hmem : ∀ x ∈ t, x ≤ qValue rs := by
      intro x hx
      exact of_decide_eq_true (List.mem_filter.mp hx).2
    have hlen : 0 < t.length := List.length_pos.mpr htne
    have hsum : t.sum ≤ t.length • qValue rs := List.sum_le_card_nsmul t _ hmem
    rw [div_le_iff (by exact_mod_cast hlen)]
    calc t.sum ≤ t.length • qValue rs := hsum
      _ = qValue rs * t.length := by rw [nsmul_eq_mul]; ring

/-- Closed-form witness for the amended C5 theorem at the return series
`[2]`. -/
theorem es_le_var_witness :
    ([2] : List ℚ) ≠ [] ∧
    ∃ q e, value_at_risk_95 [2] = some q ∧ expected_shortfall [2] = some e ∧
      e ≤ q :=
  ⟨by simp, es_le_var [2] (by simp)⟩

/-- C6: whenever the portfolio volatility `sqrt(wᵀCw)` is positive (the
claim's non-degeneracy condition), the risk-contribution percentages sum to
exactly 100 in the exact-arithmetic model. -/
theorem risk_contrib_pct_sum (n : ℕ) (cov : Fin n → Fin n → ℝ)
    (w : Fin n → ℝ) (hσ : 0 < port_vol n cov w) :
    ∑ i, risk_contrib_pct n cov w i = 100 := by
  have hS : 0 < ∑ i, w i * (∑ j, cov i j * w j) := by
    have := hσ
    unfold port_vol at this
    exact Real.sqrt_pos.mp this
  have htotal : ∑ k, risk_contrib n cov w k =
      (∑ i, w i * (∑ j, cov i j * w j)) / port_vol n cov w := by
    unfold risk_contrib marginal_contrib
    simp only [div_mul_eq_mul_div]
    rw [← Finset.sum_div]
    congr 1
    refine Finset.sum_congr rfl fun i _ => ?_
    ring
  have hT : (∑ k, risk_contrib n cov w k) ≠ 0 := by
    rw [htotal]
    exact ne_of_gt (div_pos hS hσ)
  unfold risk_contrib_pct
  simp only [div_mul_eq_mul_div]
  rw [← Finset.sum_div, ← Finset.sum_mul]
  rw [mul_comm, mul_div_assoc, div_self hT, mul_one]

/-- Closed-form witness for C6 with one instrument, unit weight and unit
covariance. -/
theorem risk_contrib_pct_sum_witness :
    0 < port_vol 1 (fun _ _ => 1) (fun _ => 1) ∧
    ∑ i, risk_contrib_pct 1 (fun _ _ => 1) (fun _ => 1) i = 100 := by
  have hpos : 0 < port_vol 1 (fun _ _ => (1 : ℝ)) (fun _ => 1) := by
    unfold port_vol
    simp
  exact ⟨hpos, risk_contrib_pct_sum 1 _ _ hpos⟩

/-- C8, counterexample to the claim as stated: for the constant return
series `[0.01, 0.01]` the sample standard deviation is exactly 0, but the
Sharpe expression evaluates to `+inf` (numpy float64 `0.01/0.0`), not NaN. -/
theorem sharpe_zero_std_counterexample :
    seriesStd [1/100, 1/100] = 0 ∧ sharpe [1/100, 1/100] ≠ FloatVal.nan := by
  have hmean : seriesMean [1/100, 1/100] = 1/100 := by
    norm_num [seriesMean]
  have hvar : seriesVar [1/100, 1/100] = 0 := by
    norm_num [seriesVar, hmean]
  have hstd : seriesStd [1/100, 1/100] = 0 := by
    rw [seriesStd, hvar, Real.sqrt_zero]
  refine ⟨hstd, ?_⟩
  unfold sharpe
  rw [hstd, hmean]
  unfold fdiv
  rw [if_pos rfl, if_neg (by norm_num), if_pos (by norm_num)]
  unfold fscale
  rw [if_pos (Real.sqrt_pos.mpr (by norm_num))]
  intro h
  exact FloatVal.noConfusion h

/-- C8 amended: when the standard deviation is zero, the Sharpe expression
`sqrt(252) * (mean / std)` is NaN only when the mean is also zero; a
positive (resp. negative) mean yields `+inf` (resp. `-inf`).  In every case
it is a sentinel value, never an exception. -/
theorem sharpe_zero_std (rs : List ℝ) (h : seriesStd rs = 0) :
    sharpe rs = if seriesMean rs = 0 then FloatVal.nan
      else if 0 < seriesMean rs then FloatVal.inf else FloatVal.ninf := by
  have hsq : 0 < Real.sqrt 252 := Real.sqrt_pos.mpr (by norm_num)
  unfold sharpe fdiv
  rw [h, if_pos rfl]
  by_cases hm : seriesMean rs = 0
  · rw [if_pos hm]
    rfl
  · rw [if_neg hm]
    by_cases hp : 0 < seriesMean rs
    · rw [if_pos hp]
      simp [fscale, hsq]
    · rw [if_neg hp]
      simp [fscale, hsq]

/-- Closed-form witness for the amended C8 theorem at the all-zero return
series, where the result is NaN. -/
theorem sharpe_zero_std_witness :
    seriesStd [(0 : ℝ), 0] = 0 ∧
    sharpe [(0 : ℝ), 0] = (if seriesMean [(0 : ℝ), 0] = 0 then FloatVal.nan
      else if 0 < seriesMean [(0 : ℝ), 0] then FloatVal.inf
      else FloatVal.ninf) := by
  have hmean : seriesMean [(0 : ℝ), 0] = 0 := by
    norm_num [seriesMean]
  have hvar : seriesVar [(0 : ℝ), 0] = 0 := by
    norm_num [seriesVar, hmean]
  have hstd : seriesStd [(0 : ℝ), 0] = 0 := by
    rw [seriesStd, hvar, Real.sqrt_zero]
  exact ⟨hstd, sharpe_zero_std _ hstd⟩

private lemma npPercentile_singleton (q : ℚ) (v : ℝ) :
    npPercentile q [v] = v := by
  have hidx : q / 100 * ((([v] : List ℝ).length : ℚ) - 1) = 0 := by
    norm_num
  unfold npPercentile
  rw [hidx]
  norm_num [List.insertionSort, List.orderedInsert]

private lemma seriesVar_nonneg (rs : List ℝ) : 0 ≤ seriesVar rs := by
  unfold seriesVar
  apply div_nonneg
  · apply List.sum_nonneg
    intro x hx
    obtain ⟨y, _, rfl⟩ := List.mem_map.mp hx
    positivity
  · positivity

/-- C7: with one simulation and one day, the single path entry is
`10000 * exp(drift + σ·Z)` for the one drawn `Z`, where
`drift = mean - variance/2` and `σ = std`, and all five reported
percentiles equal that single terminal value. -/
theorem monte_carlo_single (pr mr : List ℝ) (z : ℕ → ℕ → ℝ)
    (hlen : 2 ≤ pr.length) :
    (run_monte_carlo_simulation pr mr z 1 1).1 0 0 =
      10000 * Real.exp ((seriesMean pr - seriesVar pr / 2) +
        seriesStd pr * z 0 0) ∧
    (run_monte_carlo_simulation pr mr z 1 1).2 =
      List.replicate 5 ((run_monte_carlo_simulation pr mr z 1 1).1 0 0) := by
  have hsq : seriesStd pr ^ 2 = seriesVar pr := by
    unfold seriesStd
    exact Real.sq_sqrt (seriesVar_nonneg pr)
  have hpath : (run_monte_carlo_simulation pr mr z 1 1).1 0 0 =
      10000 * Real.exp ((seriesMean pr - seriesVar pr / 2) +
        seriesStd pr * z 0 0) := by
    show price_paths pr z 0 0 = _
    unfold price_paths
    rw [Finset.prod_range_one]
    unfold daily_returns
    rw [hsq]
  refine ⟨hpath, ?_⟩
  have hofn : (List.ofFn fun i : Fin 1 => price_paths pr z i (1 - 1)) =
      [price_paths pr z 0 0] := by
    simp [List.ofFn_succ]
  show ([5, 25, 50, 75, 95].map fun q =>
      npPercentile q (List.ofFn fun i : Fin 1 => price_paths pr z i (1 - 1))) = _
  rw [hofn]
  simp only [List.map_cons, List.map_nil, npPercentile_singleton]
  have hpath2 : price_paths pr z 0 0 =
      10000 * Real.exp ((seriesMean pr - seriesVar pr / 2) +
        seriesStd pr * z 0 0) := hpath
  rw [hpath2, hpath]
  rfl

/-- Closed-form witness for C7 at the return series `[0.01, 0.03]` and the
constant draw `Z = 1/2`. -/
theorem monte_carlo_single_witness :
    2 ≤ ([1/100, 3/100] : List ℝ).length ∧
    ((run_monte_carlo_simulation [1/100, 3/100] [] (fun _ _ => 1/2) 1 1).1 0 0 =
      10000 * Real.exp ((seriesMean [1/100, 3/100] -
        seriesVar [1/100, 3/100] / 2) +
        seriesStd [1/100, 3/100] * (fun _ _ => (1 : ℝ)/2) 0 0) ∧
    (run_monte_carlo_simulation [1/100, 3/100] [] (fun _ _ => 1/2) 1 1).2 =
      List.replicate 5
        ((run_monte_carlo_simulation [1/100, 3/100] [] (fun _ _ => 1/2) 1 1).1 0 0)) :=
  ⟨by norm_num, monte_carlo_single [1/100, 3/100] [] (fun _ _ => 1/2) (by norm_num)⟩

/-- C10: the output of `run_monte_carlo_simulation` does not depend on its
`market_returns` argument — with identical portfolio returns, draws and
dimensions, any two market return series give identical results. -/
theorem monte_carlo_ignores_market (pr m1 m2 : List ℝ) (z : ℕ → ℕ → ℝ)
    (n_simulations n_days : ℕ) :
    run_monte_carlo_simulation pr m1 z n_simulations n_days =
      run_monte_carlo_simulation pr m2 z n_simulations n_days := rfl

end StockDash
